import Mathlib

/-!
Verification development for the lattice-reduction / periodic minimum-image
distance program in `src/StructureConstants/main.cpp`.

The program is embedded shallowly over exact rational arithmetic (`ℚ` in
place of `double`).  Vectors are `ℕ → ℚ` with only indices `0, 1, 2`
meaningful; 3×3 matrices in column form are `ℕ → Vec` (a function from
column index to column), matching Eigen's column accessors used by the
source.  Division by zero in `ℚ` yields `0` (the source would produce
inf/nan there; the degenerate-input claims are treated with care around
this difference).
-/

namespace StructureConstants

/-- A 3-vector over exact rationals; indices `0,1,2` are the components. -/
abbrev Vec : Type := ℕ → ℚ

/-- Build a 3-vector from its components (indices `≥ 3` are `0`). -/
def mkVec (x y z : ℚ) : Vec := fun r =>
  if r = 0 then x else if r = 1 then y else if r = 2 then z else 0

/-- Dot product of two 3-vectors (`v.dot(w)` / `v.transpose() * w`). -/
def vdot (v w : Vec) : ℚ := v 0 * w 0 + v 1 * w 1 + v 2 * w 2

/-- Componentwise difference of vectors. -/
def vsub (v w : Vec) : Vec := fun r => v r - w r

/-- Componentwise sum of vectors. -/
def vadd (v w : Vec) : Vec := fun r => v r + w r

/-- Scalar multiple of a vector. -/
def vsmul (c : ℚ) (v : Vec) : Vec := fun r => c * v r

/-- Model of `std::rint` under the default rounding mode: round to the
nearest integer, ties to even. -/
def rint (x : ℚ) : ℤ :=
  let f : ℤ := ⌊x⌋
  if x - f < 1/2 then f
  else if 1/2 < x - f then f + 1
  else if Even f then f else f + 1

/-- Rounding to the nearest integer moves a value by at most `1/2`. -/
theorem abs_sub_rint_le (x : ℚ) : |x - (rint x : ℚ)| ≤ 1/2 := by
  have h0 : (0:ℚ) ≤ x - (⌊x⌋ : ℤ) := by
    have := Int.floor_le x
    linarith
  have h1 : x - (⌊x⌋ : ℤ) < 1 := by
    have := Int.lt_floor_add_one x
    push_cast at this ⊢
    linarith
  unfold rint
  by_cases hlt : x - (⌊x⌋ : ℤ) < 1/2
  · simp only [hlt, if_true]
    rw [abs_le]
    constructor <;> linarith
  · simp only [hlt, if_false]
    by_cases hgt : 1/2 < x - (⌊x⌋ : ℤ)
    · simp only [hgt, if_true]
      rw [abs_le]
      push_cast
      constructor <;> linarith
    · simp only [hgt, if_false]
      by_cases hev : Even (⌊x⌋)
      · simp only [hev, if_true]
        rw [abs_le]
        constructor <;> linarith
      · simp only [hev, if_false]
        rw [abs_le]
        push_cast
        constructor <;> linarith

/-!
## The lattice reducer (`main.cpp` lines 37–133)

The C++ `main` keeps the working basis `a`, the Gram–Schmidt vectors `b`,
the coefficient matrix `u`, the squared norms `m`, the unimodular
`mapping` and the 1-indexed progress pointer `k` as mutable locals; we
package them in a state record.  Basis vectors are the *columns* of `a`
(`a = lattice.transpose()`), so `a j` below is the `j`-th basis vector.
-/

/-- The mutable state of the reduction loop: working basis columns `a`,
Gram–Schmidt vectors `b`, coefficients `u`, squared norms `m`, the
accumulated `mapping` columns, and the progress pointer `k` (1-indexed). -/
structure St where
  a : ℕ → Vec
  b : ℕ → Vec
  u : ℕ → ℕ → ℚ
  m : ℕ → ℚ
  map : ℕ → Vec
  k : ℕ

/-- Reduction parameter, `double delta = 0.75` (line 37). -/
def delta : ℚ := 0.75

/-- Identity mapping columns, `mapping.setIdentity()` (line 59). -/
def idCols : ℕ → Vec := fun c => fun r => if r = c then 1 else 0

/-- Projection sum `b(:,0..r-1) * u(r,0..r-1)ᵀ` appearing in the
Gram–Schmidt updates (lines 52–53 and 119–120). -/
def projSum (u : ℕ → ℕ → ℚ) (b : ℕ → Vec) (r : ℕ) : Vec :=
  fun c => ∑ j ∈ Finset.range r, u r j * b j c

/-- One Gram–Schmidt recomputation for (1-indexed) vector number `si`
(lines 115–123, also the body of the initialization loop, lines 49–55):
row `si-1` of `u` is recomputed from the working basis and the *current*
earlier `b` columns, then `b` column `si-1` and `m (si-1)` are refreshed. -/
def gsRecompute (si : ℕ) (t : St) : St :=
  let r := si - 1
  let u' : ℕ → ℕ → ℚ := fun p j =>
    if p = r ∧ j < r then vdot (t.a r) (t.b j) / t.m j else t.u p j
  let br : Vec := vsub (t.a r) (projSum u' t.b r)
  { t with u := u', b := Function.update t.b r br,
           m := Function.update t.m r (vdot br br) }

/-- Initialization (lines 40–59): `a` holds the lattice rows as columns,
`b.col(0) = a.col(0)`, `m(0) = b₀·b₀`, the loop `i = 1, 2` fills rows 1
and 2 of the Gram–Schmidt data, the mapping starts as the identity and
`k` starts at 2. -/
def gsInit (a₀ : ℕ → Vec) : St :=
  let s0 : St := ⟨a₀, fun _ => fun _ => 0, fun _ _ => 0, fun _ => 0, idCols, 2⟩
  let s1 : St := { s0 with
    b := Function.update s0.b 0 (a₀ 0),
    m := Function.update s0.m 0 (vdot (a₀ 0) (a₀ 0)) }
  gsRecompute 3 (gsRecompute 2 s1)

/-- One pass of the size-reduction inner loop for (1-indexed) working row
`k` and inner index `i` (lines 67–91): if `|u(k-1,i-1)| > 0.5` the basis
column `k-1` and the mapping column `k-1` are reduced by `q` times column
`i-1`, `q = rint(u(k-1,i-1))`, and row `k-1` of `u` is updated by the
exact algebraic rule through the helper vector `uu`. -/
def sizeRedBody (k i : ℕ) (s : St) : St :=
  let mu := s.u (k-1) (i-1)
  if 1/2 < |mu| then
    let q : ℚ := (rint mu : ℤ)
    let uu : ℕ → ℚ := fun j =>
      if j < i - 1 then s.u (i-1) j else if j = i - 1 then 1 else 0
    { s with
      a := Function.update s.a (k-1) (vsub (s.a (k-1)) (vsmul q (s.a (i-1)))),
      map := Function.update s.map (k-1) (vsub (s.map (k-1)) (vsmul q (s.map (i-1)))),
      u := fun p j => if p = k-1 ∧ j < i then s.u p j - q * uu j else s.u p j }
  else s

/-- The size-reduction loop `for (int i = k - 1; i > 0; i--)` (line 67). -/
def sizeRed (k : ℕ) (s : St) : St :=
  (List.range (k-1)).foldl (fun t d => sizeRedBody k (k - 1 - d) t) s

/-- Swap of two columns, `a.col(p).swap(a.col(q))` (lines 105–106). -/
def colSwap (p q : ℕ) (f : ℕ → Vec) : ℕ → Vec :=
  Function.update (Function.update f p (f q)) q (f p)

/-- One iteration of the `while (k <= 3)` loop body at pointer value `k`
(lines 61–133): size-reduce, then either advance on the Lovász test
`norm1 >= norm2` (lines 94–98) or swap columns `k-1`, `k-2` of the basis
and the mapping, recompute the Gram–Schmidt data for vector numbers
`k-1` and `k`, and retreat the pointer when `k > 2` (lines 105–127). -/
def bodyAt (k : ℕ) (s : St) : St :=
  let s1 := sizeRed k s
  let norm1 := vdot (s1.b (k-1)) (s1.b (k-1))
  let norm2 := (delta - |s1.u (k-1) (k-2)| ^ 2) * vdot (s1.b (k-2)) (s1.b (k-2))
  if norm2 ≤ norm1 then
    { s1 with k := k + 1 }
  else
    let s2 := { s1 with a := colSwap (k-1) (k-2) s1.a,
                        map := colSwap (k-1) (k-2) s1.map }
    let s3 := gsRecompute k (gsRecompute (k-1) s2)
    { s3 with k := if 2 < k then k - 1 else k }

/-- The loop body, reading the pointer from the state. -/
def body (s : St) : St := bodyAt s.k s

/-- The reduction loop with explicit fuel: `none` means the fuel ran out
while `k ≤ 3` still held; `some s` is the state at normal termination
(the source loop has no other exit and no iteration cap). -/
def reduceLoop : ℕ → St → Option St
  | 0, s => if s.k ≤ 3 then none else some s
  | n+1, s => if s.k ≤ 3 then reduceLoop n (body s) else some s

/-- The whole reducer: initialization followed by the loop. -/
def lllReduce (a₀ : ℕ → Vec) (fuel : ℕ) : Option St :=
  reduceLoop fuel (gsInit a₀)

/-- The state after `n` executed loop iterations (the state is left
unchanged once the loop guard `k ≤ 3` fails), used to speak about every
intermediate point of the reduction. -/
def trace (a₀ : ℕ → Vec) : ℕ → St
  | 0 => gsInit a₀
  | n+1 => let s := trace a₀ n; if s.k ≤ 3 then body s else s

/-- The hard-coded demonstration lattice (lines 21–23), rows
`(2,0,0)`, `(0.1,1.8,0)`, `(0.1,0.2,0.9)`; after the transpose these are
the basis columns. -/
def demoA : ℕ → Vec := fun j =>
  if j = 0 then mkVec 2 0 0
  else if j = 1 then mkVec (1/10) (9/5) 0
  else if j = 2 then mkVec (1/10) (1/5) (9/10)
  else fun _ => 0

/-- A degenerate basis with two identical vectors. -/
def degA : ℕ → Vec := fun j =>
  if j = 0 then mkVec 1 0 0
  else if j = 1 then mkVec 1 0 0
  else if j = 2 then mkVec 0 0 1
  else fun _ => 0

/-!
## The periodic minimum-image distance (`main.cpp` lines 143–232)

The distance computation consumes the reduced basis `lll = a.transpose()`
(rows are the reduced basis vectors), the inverse `lll_inverse` of the
transposed mapping, and two fractional points.  Matrices here are plain
row-indexed functions `ℕ → ℕ → ℚ` (entry `M r c`).
-/

/-- The 81 literals of the `images` comma-initializer, in the exact
textual order of lines 169–197. -/
def imagesList : List ℚ :=
  [-1, -1, -1,  -1, -1, 0,  -1, -1, 1,
   -1, 0, -1,  -1, 0, 0,  -1, 0, 1,
   -1, 1, -1,  -1, 1, 0,  -1, 1, 1,
   0, -1, -1,  0, -1, 0,  0, -1, 1,
   0, 0, -1,  0, 0, 0,  0, 0, 1,
   0, 1, -1,  0, 1, 0,  0, 1, 1,
   1, -1, -1,  1, -1, 0,  1, -1, 1,
   1, 0, -1,  1, 0, 0,  1, 0, 1,
   1, 1, -1,  1, 1, 0,  1, 1, 1]

/-- Entry `(r, c)` of the 3×27 matrix `images`.  Eigen's comma
initializer fills a matrix coefficient-wise row by row regardless of its
storage order, so the 81 literals fill row 0 first (27 entries), then
row 1, then row 2: entry `(r, c)` is literal number `27*r + c`. -/
def images (r c : ℕ) : ℚ := imagesList.getD (27 * r + c) 0

/-- Column `c` of `cart_images = lll.transpose() * images` (line 210):
the candidate Cartesian translation for enumeration index `c`. -/
def cartImage (lll : ℕ → ℕ → ℚ) (c : ℕ) : Vec :=
  fun r => lll 0 r * images 0 c + lll 1 r * images 1 c + lll 2 r * images 2 c

/-- Row-vector times matrix, `f.transpose() * M` (lines 200–201, 207–208). -/
def rowVecMul (f : Vec) (M : ℕ → ℕ → ℚ) : Vec :=
  fun j => f 0 * M 0 j + f 1 * M 1 j + f 2 * M 2 j

/-- Truncation of a rational toward zero, the effect of the implicit
`double → int` conversion in the wrap lambda's parameter (line 203). -/
def cppTrunc (x : ℚ) : ℤ := if 0 ≤ x then ⌊x⌋ else ⌈x⌉

/-- Value of the lambda `[](const int x) { return x % 2; }` applied to a
coordinate (C++ `%` is the truncated remainder).  In the program this
value is computed by `unaryExpr` and immediately discarded, since the
returned expression is never assigned. -/
def wrapFn (x : ℚ) : ℚ := ((Int.tmod (cppTrunc x) 2 : ℤ) : ℚ)

/-- The raw Cartesian displacement `pre_image = cart2 - cart1`
(lines 200–212), where `cartᵢ = (fᵢᵀ · lll_inverse)ᵀ · lll`. -/
def preVec (lll lllInv : ℕ → ℕ → ℚ) (f1 f2 : Vec) : Vec :=
  vsub (rowVecMul (rowVecMul f2 lllInv) lll) (rowVecMul (rowVecMul f1 lllInv) lll)

/-- Squared length of candidate number `i`:
`(pre_image + cart_images.col(i)).squaredNorm()` (lines 218–219). -/
def candSq (lll lllInv : ℕ → ℕ → ℚ) (f1 f2 : Vec) (i : ℕ) : ℚ :=
  vdot (vadd (preVec lll lllInv f1 f2) (cartImage lll i))
       (vadd (preVec lll lllInv f1 f2) (cartImage lll i))

/-- The selection loop `for (i = 0; i < 27; i++)` (lines 217–226) over
the first `n` candidate indices, threading the pair `(best, bestk)`:
an index replaces the incumbent only when its squared length is strictly
smaller (`d < best`). -/
def selectLoop (d : ℕ → ℚ) : ℕ → ℚ × ℕ → ℚ × ℕ
  | 0, p => p
  | n+1, p =>
      let p' := selectLoop d n p
      if d n < p'.1 then (d n, n) else p'

/-- Result of the minimum-image search: the raw displacement `pre`, the
best squared length `best` and the chosen enumeration index `bestk`. -/
structure DistResult where
  pre : Vec
  best : ℚ
  bestk : ℕ

/-- The whole distance computation (lines 200–229).  The two
`unaryExpr` wrap statements (lines 203–204) produce values that are
bound here to `_w1`, `_w2` and never used, exactly as the source
discards the returned expressions; `best` starts at the sentinel
`1.0e20` and `bestk` at 0 (lines 214–215). -/
def periodicDistance (lll lllInv : ℕ → ℕ → ℚ) (f1 f2 : Vec) : DistResult :=
  let lf1 := rowVecMul f1 lllInv
  let lf2 := rowVecMul f2 lllInv
  let _w1 : Vec := fun r => wrapFn (lf1 r)
  let _w2 : Vec := fun r => wrapFn (lf2 r)
  let pre := preVec lll lllInv f1 f2
  let sel := selectLoop (candSq lll lllInv f1 f2) 27 ((1e20 : ℚ), 0)
  ⟨pre, sel.1, sel.2⟩

/-- The same algorithm with the wrapping statements omitted entirely. -/
def periodicDistanceNoWrap (lll lllInv : ℕ → ℕ → ℚ) (f1 f2 : Vec) : DistResult :=
  let pre := preVec lll lllInv f1 f2
  let sel := selectLoop (candSq lll lllInv f1 f2) 27 ((1e20 : ℚ), 0)
  ⟨pre, sel.1, sel.2⟩

/-- The reported displacement vector
`dist_vec = pre_image + cart_images(all, bestk)` (line 228). -/
def distVec (lll lllInv : ℕ → ℕ → ℚ) (f1 f2 : Vec) : Vec :=
  vadd (periodicDistance lll lllInv f1 f2).pre
       (cartImage lll (periodicDistance lll lllInv f1 f2).bestk)

/-- The 3×3 identity in row-matrix form, used as a concrete
well-conditioned basis and mapping inverse. -/
def idMat : ℕ → ℕ → ℚ := fun r c => if r = c then 1 else 0

/-- View a row-indexed `ℕ`-function matrix as a Mathlib 3×3 matrix. -/
def toMat (A : ℕ → ℕ → ℚ) : Matrix (Fin 3) (Fin 3) ℚ :=
  Matrix.of fun r c : Fin 3 => A r.val c.val

/-- View a column-form matrix (a function from column index to column)
as a Mathlib 3×3 matrix. -/
def colMat (f : ℕ → Vec) : Matrix (Fin 3) (Fin 3) ℚ :=
  Matrix.of fun r c : Fin 3 => f c.val r.val

/-- Two fractional points exhibiting the distance asymmetry. -/
def fAsym1 : Vec := mkVec 0 0 (9/10)

/-- Second point of the asymmetric pair. -/
def fAsym2 : Vec := mkVec (9/10) 0 0

/-- The state actually produced by the reducer on the demonstration
lattice (fuel 12 is more than the 6 iterations the run needs). -/
def demoFinal : St := (lllReduce demoA 12).getD (gsInit demoA)

/-!
## General facts about the building blocks
-/

theorem vdot_self_nonneg (v : Vec) : 0 ≤ vdot v v := by
  unfold vdot
  nlinarith [mul_self_nonneg (v 0), mul_self_nonneg (v 1), mul_self_nonneg (v 2)]

theorem vdot_self_pos (v : Vec) (h : ¬(v 0 = 0 ∧ v 1 = 0 ∧ v 2 = 0)) :
    0 < vdot v v := by
  unfold vdot
  by_cases h0 : v 0 = 0
  · by_cases h1 : v 1 = 0
    · by_cases h2 : v 2 = 0
      · exact absurd ⟨h0, h1, h2⟩ h
      · nlinarith [mul_self_nonneg (v 0), mul_self_nonneg (v 1),
          (mul_self_pos).mpr h2]
    · nlinarith [mul_self_nonneg (v 0), mul_self_nonneg (v 2),
        (mul_self_pos).mpr h1]
  · nlinarith [mul_self_nonneg (v 1), mul_self_nonneg (v 2),
      (mul_self_pos).mpr h0]

theorem vdot_self_eq_zero_components (v : Vec) (h : vdot v v = 0) :
    v 0 = 0 ∧ v 1 = 0 ∧ v 2 = 0 := by
  by_contra hc
  exact absurd h (ne_of_gt (vdot_self_pos v hc))

/-- Invariant of the candidate-selection loop after scanning the first
`n` indices starting from `(s₀, 0)`: either no candidate beat the
sentinel and the pair is untouched, or the pair holds a strictly
sub-sentinel value attained at its index, no scanned candidate is
smaller, and every index before the chosen one is strictly larger
(the first minimum in enumeration order wins). -/
theorem selectLoop_inv (d : ℕ → ℚ) (s₀ : ℚ) :
    ∀ n : ℕ,
      ((selectLoop d n (s₀, 0)).1 = s₀ ∧ (selectLoop d n (s₀, 0)).2 = 0 ∧
        ∀ i, i < n → s₀ ≤ d i) ∨
      ((selectLoop d n (s₀, 0)).2 < n ∧
        d (selectLoop d n (s₀, 0)).2 = (selectLoop d n (s₀, 0)).1 ∧
        (selectLoop d n (s₀, 0)).1 < s₀ ∧
        (∀ i, i < n → (selectLoop d n (s₀, 0)).1 ≤ d i) ∧
        ∀ j, j < (selectLoop d n (s₀, 0)).2 → (selectLoop d n (s₀, 0)).1 < d j) := by
  have hstep : ∀ (n : ℕ) (p : ℚ × ℕ),
      selectLoop d (n+1) p =
        if d n < (selectLoop d n p).1 then (d n, n) else selectLoop d n p :=
    fun _ _ => rfl
  intro n
  induction n with
  | zero => exact Or.inl ⟨rfl, rfl, by omega⟩
  | succ n ih =>
    rcases ih with ⟨hb, hk, hall⟩ | ⟨hkn, hdk, hlt, hall, hfirst⟩
    · by_cases hn : d n < (selectLoop d n (s₀, 0)).1
      · refine Or.inr ?_
        rw [hstep, if_pos hn]
        refine ⟨by omega, rfl, by rw [hb] at hn; exact hn, ?_, ?_⟩
        · intro i hi
          rcases Nat.lt_succ_iff_lt_or_eq.mp hi with hi' | hi'
          · exact le_of_lt (lt_of_lt_of_le (hb ▸ hn) (hall i hi'))
          · exact hi' ▸ le_rfl
        · intro j hj
          exact lt_of_lt_of_le (hb ▸ hn) (hall j hj)
      · refine Or.inl ?_
        rw [hstep, if_neg hn]
        refine ⟨hb, hk, ?_⟩
        intro i hi
        rcases Nat.lt_succ_iff_lt_or_eq.mp hi with hi' | hi'
        · exact hall i hi'
        · rw [hi']; rw [hb] at hn; exact le_of_not_lt hn
    · by_cases hn : d n < (selectLoop d n (s₀, 0)).1
      · refine Or.inr ?_
        rw [hstep, if_pos hn]
        refine ⟨by omega, rfl, lt_trans hn hlt, ?_, ?_⟩
        · intro i hi
          rcases Nat.lt_succ_iff_lt_or_eq.mp hi with hi' | hi'
          · exact le_of_lt (lt_of_lt_of_le hn (hall i hi'))
          · exact hi' ▸ le_rfl
        · intro j hj
          exact lt_of_lt_of_le hn (hall j hj)
      · refine Or.inr ?_
        rw [hstep, if_neg hn]
        refine ⟨by omega, hdk, hlt, ?_, hfirst⟩
        intro i hi
        rcases Nat.lt_succ_iff_lt_or_eq.mp hi with hi' | hi'
        · exact hall i hi'
        · rw [hi']; exact le_of_not_lt hn

/-!
## Claim theorems

Concrete runs of the model are evaluated by kernel reduction; the
Batteries rational-arithmetic primitives are restored to their ordinary
transparency for that purpose (they are marked irreducible upstream
only to keep `simp` from unfolding them).
-/

section ClaimTheorems

attribute [local semireducible] Rat.add Rat.mul Rat.sub Rat.inv Rat.ofScientific

set_option maxRecDepth 40000

/-- The reducer's run on the demonstration lattice terminates: fuel 12
suffices and the final state is `demoFinal`. -/
theorem demoFinal_run : lllReduce demoA 12 = some demoFinal := by
  have h : (lllReduce demoA 12).isSome = true := by decide
  obtain ⟨x, hx⟩ := Option.isSome_iff_exists.mp h
  show lllReduce demoA 12 = some ((lllReduce demoA 12).getD (gsInit demoA))
  rw [hx, Option.getD_some]

/-- C1 (code evaluation): the columns of the `images` matrix are not the
27 distinct periodic image offsets.  Because Eigen's comma initializer
fills the 3×27 matrix row by row, columns 1 and 2 coincide (both are
`(-1,-1,-1)`), column 0 is `(-1,0,1)`, and the offset `(-1,-1,0)` never
occurs among the 27 columns — contradicting the claim that each of the
27 offsets appears exactly once. -/
theorem images_initializer_is_row_major_garbled :
    (∀ r : Fin 3, images r.val 1 = images r.val 2) ∧
    (images 0 0 = -1 ∧ images 1 0 = 0 ∧ images 2 0 = 1) ∧
    (∀ c : Fin 27, ¬(images 0 c.val = -1 ∧ images 1 c.val = -1 ∧
       images 2 c.val = 0)) := by
  decide

/-- C9: the fractional-coordinate wrapping statements have no effect.
`unaryExpr` returns a fresh expression whose value the program
discards, so the algorithm's result — raw displacement, best squared
length and chosen image index, from which displacement vector and
distance are read off — coincides with that of the same algorithm with
the two wrap statements omitted entirely, for every basis, mapping
inverse and pair of fractional points. -/
theorem wrap_statements_have_no_effect (lll lllInv : ℕ → ℕ → ℚ) (f1 f2 : Vec) :
    periodicDistance lll lllInv f1 f2 = periodicDistanceNoWrap lll lllInv f1 f2 :=
  rfl

/-- C7 (code evaluation): the scalar minimum-image distance of the
program is not symmetric.  For the identity basis and the fractional
points `(0,0,0.9)` and `(0.9,0,0)`, the best squared lengths are `1/50`
and `81/50` respectively — the candidate offset `(-1,0,1)` present in
the garbled image set has no negation there — so the two reported
distances (their square roots) differ. -/
theorem distance_is_not_symmetric :
    Real.sqrt (((periodicDistance idMat idMat fAsym1 fAsym2).best : ℚ) : ℝ) ≠
    Real.sqrt (((periodicDistance idMat idMat fAsym2 fAsym1).best : ℚ) : ℝ) := by
  have h1 : (periodicDistance idMat idMat fAsym1 fAsym2).best = 1/50 := by decide
  have h2 : (periodicDistance idMat idMat fAsym2 fAsym1).best = 81/50 := by decide
  rw [h1, h2]
  have hlt : Real.sqrt (((1/50 : ℚ) : ℝ)) < Real.sqrt (((81/50 : ℚ) : ℝ)) := by
    apply Real.sqrt_lt_sqrt
    · push_cast
      norm_num
    · push_cast
      norm_num
  exact ne_of_lt hlt

/-- C4 (code evaluation): the reducer performs no degeneracy check.  On
a basis with two identical vectors the Gram–Schmidt squared norm `m 1`
collapses to exactly `0` during initialization, no branch of the
program inspects it, and the run (in the exact-arithmetic model, where
division by zero yields 0) still returns a result instead of raising
any error — the program contains no error handling at all. -/
theorem degenerate_basis_is_not_rejected :
    (gsInit degA).m 1 = 0 ∧ (lllReduce degA 12).isSome = true := by
  constructor
  · decide
  · decide

/-- C5 (code evaluation): the reduction loop has no iteration cap.  Its
sole exit condition is the pointer test `k ≤ 3` failing: whenever the
loop returns a state it is because `k` exceeded 3, never because a step
budget was exhausted, and the program defines no
`AlgorithmDivergenceError`. -/
theorem reduction_loop_sole_exit_is_pointer_test :
    ∀ (n : ℕ) (s s' : St), reduceLoop n s = some s' → 3 < s'.k := by
  intro n
  induction n with
  | zero =>
    intro s s' h
    unfold reduceLoop at h
    split at h
    · cases h
    · cases h
      omega
  | succ n ih =>
    intro s s' h
    unfold reduceLoop at h
    split at h
    · exact ih _ _ h
    · cases h
      omega

/-- Witness for C5's theorem: instantiating it on the demonstration
lattice, whose run terminates with `k = 4`. -/
theorem reduction_loop_sole_exit_witness : 3 < demoFinal.k :=
  reduction_loop_sole_exit_is_pointer_test 12 (gsInit demoA) demoFinal demoFinal_run

/-- C10: when every one of the 27 candidate squared lengths is at least
the sentinel `1.0e20`, the selection loop never updates `best`/`bestk`,
so the result is the sentinel itself with enumeration index 0, and the
reported distance is `sqrt(1.0e20) = 1.0e10`, which is not the length
of any inspected candidate. -/
theorem sentinel_survives_when_all_candidates_large
    (lll lllInv : ℕ → ℕ → ℚ) (f1 f2 : Vec)
    (h : ∀ i, i < 27 → (1e20 : ℚ) ≤ candSq lll lllInv f1 f2 i) :
    (periodicDistance lll lllInv f1 f2).best = 1e20 ∧
    (periodicDistance lll lllInv f1 f2).bestk = 0 ∧
    Real.sqrt (((periodicDistance lll lllInv f1 f2).best : ℚ) : ℝ) = 1e10 := by
  have hb : (periodicDistance lll lllInv f1 f2).best =
      (selectLoop (candSq lll lllInv f1 f2) 27 ((1e20 : ℚ), 0)).1 := rfl
  have hk : (periodicDistance lll lllInv f1 f2).bestk =
      (selectLoop (candSq lll lllInv f1 f2) 27 ((1e20 : ℚ), 0)).2 := rfl
  rcases selectLoop_inv (candSq lll lllInv f1 f2) (1e20 : ℚ) 27 with
    ⟨h1, h2, _⟩ | ⟨hkn, hdk, hlt, _, _⟩
  · refine ⟨hb ▸ h1, hk ▸ h2, ?_⟩
    rw [hb, h1]
    have hcast : (((1e20 : ℚ)) : ℝ) = ((1e10 : ℝ)) ^ 2 := by
      norm_num
    rw [hcast, Real.sqrt_sq (by norm_num)]
  · exfalso
    have := h _ hkn
    rw [hdk] at this
    exact absurd this (not_le.mpr hlt)

/-- Witness for C10's theorem: with the identity basis and a second
point at fractional coordinate `10¹²`, every candidate squared length
exceeds the sentinel, and the program reports `best = 1e20`, index 0. -/
theorem sentinel_survives_witness :
    (periodicDistance idMat idMat (mkVec 0 0 0) (mkVec (10^12) 0 0)).best = 1e20 ∧
    (periodicDistance idMat idMat (mkVec 0 0 0) (mkVec (10^12) 0 0)).bestk = 0 ∧
    Real.sqrt (((periodicDistance idMat idMat (mkVec 0 0 0)
        (mkVec (10^12) 0 0)).best : ℚ) : ℝ) = 1e10 :=
  sentinel_survives_when_all_candidates_large idMat idMat _ _ (by decide)

/-- For coincident input points the raw displacement vanishes
componentwise. -/
theorem preVec_self (lll lllInv : ℕ → ℕ → ℚ) (f : Vec) (r : ℕ) :
    preVec lll lllInv f f r = 0 := sub_self _

/-- For coincident points each candidate's squared length is just the
squared length of the corresponding Cartesian image offset. -/
theorem candSq_self (lll lllInv : ℕ → ℕ → ℚ) (f : Vec) (i : ℕ) :
    candSq lll lllInv f f i = vdot (cartImage lll i) (cartImage lll i) := by
  simp [candSq, vdot, vadd, preVec_self]

/-- The `cartImage` columns are the matrix-vector products of the
transposed basis with the image columns. -/
theorem cartImage_mulVec (lll : ℕ → ℕ → ℚ) (c : ℕ) (r : Fin 3) :
    Matrix.mulVec (Matrix.transpose (toMat lll)) (fun t : Fin 3 => images t.val c) r =
      cartImage lll c r.val := by
  simp [toMat, cartImage, Matrix.mulVec, Matrix.dotProduct, Fin.sum_univ_three,
    Matrix.transpose_apply]

/-- A nondegenerate basis sends a nonzero image offset to a nonzero
Cartesian translation. -/
theorem cartImage_ne_zero_of_det (lll : ℕ → ℕ → ℚ)
    (hdet : (toMat lll).det ≠ 0) (c : ℕ)
    (hc : ¬(images 0 c = 0 ∧ images 1 c = 0 ∧ images 2 c = 0)) :
    ¬(cartImage lll c 0 = 0 ∧ cartImage lll c 1 = 0 ∧ cartImage lll c 2 = 0) := by
  intro h
  have hv : (fun t : Fin 3 => images t.val c) ≠ 0 := by
    intro h0
    exact hc ⟨congrFun h0 0, congrFun h0 1, congrFun h0 2⟩
  have hmul : Matrix.mulVec (Matrix.transpose (toMat lll))
      (fun t : Fin 3 => images t.val c) = 0 := by
    funext r
    rw [Pi.zero_apply, cartImage_mulVec lll c r]
    fin_cases r
    · exact h.1
    · exact h.2.1
    · exact h.2.2
  have hdet0 : (Matrix.transpose (toMat lll)).det = 0 :=
    Matrix.exists_mulVec_eq_zero_iff.mp ⟨_, hv, hmul⟩
  rw [Matrix.det_transpose] at hdet0
  exact hdet hdet0

/-- C8: for every nondegenerate basis and every fractional point, the
minimum-image computation on coincident points returns best squared
length 0 — hence distance 0 — with the zero displacement vector; the
selected enumeration index is 5, the first index whose image offset is
the zero offset, and every earlier candidate has strictly positive
squared length, so the first minimum found in enumeration order wins. -/
theorem coincident_points_give_zero (lll lllInv : ℕ → ℕ → ℚ)
    (hdet : (toMat lll).det ≠ 0) (f : Vec) :
    (periodicDistance lll lllInv f f).best = 0 ∧
    (distVec lll lllInv f f 0 = 0 ∧ distVec lll lllInv f f 1 = 0 ∧
      distVec lll lllInv f f 2 = 0) ∧
    (periodicDistance lll lllInv f f).bestk = 5 ∧
    (images 0 5 = 0 ∧ images 1 5 = 0 ∧ images 2 5 = 0) ∧
    (∀ j, j < 5 → 0 < candSq lll lllInv f f j) := by
  have h50 : images 0 5 = 0 ∧ images 1 5 = 0 ∧ images 2 5 = 0 := by decide
  have hcart5 : ∀ r, cartImage lll 5 r = 0 := by
    intro r
    unfold cartImage
    rw [h50.1, h50.2.1, h50.2.2]
    ring
  have hpos : ∀ j, j < 5 → 0 < candSq lll lllInv f f j := by
    intro j hj
    rw [candSq_self]
    apply vdot_self_pos
    apply cartImage_ne_zero_of_det lll hdet
    interval_cases j <;> decide
  have h5 : candSq lll lllInv f f 5 = 0 := by
    rw [candSq_self]
    unfold vdot
    rw [hcart5 0, hcart5 1, hcart5 2]
    ring
  have hb : (periodicDistance lll lllInv f f).best =
      (selectLoop (candSq lll lllInv f f) 27 ((1e20 : ℚ), 0)).1 := rfl
  have hkk : (periodicDistance lll lllInv f f).bestk =
      (selectLoop (candSq lll lllInv f f) 27 ((1e20 : ℚ), 0)).2 := rfl
  rcases selectLoop_inv (candSq lll lllInv f f) (1e20 : ℚ) 27 with
    ⟨_, _, hall⟩ | ⟨hkn, hdk, _, hall, hfirst⟩
  · exfalso
    have h1e := hall 5 (by omega)
    rw [h5] at h1e
    norm_num at h1e
  · have hbest0 : (selectLoop (candSq lll lllInv f f) 27 ((1e20 : ℚ), 0)).1 = 0 := by
      have hle := hall 5 (by omega)
      rw [h5] at hle
      have hge : 0 ≤ (selectLoop (candSq lll lllInv f f) 27 ((1e20 : ℚ), 0)).1 := by
        rw [← hdk, candSq_self]
        exact vdot_self_nonneg _
      linarith
    have hbk : (selectLoop (candSq lll lllInv f f) 27 ((1e20 : ℚ), 0)).2 = 5 := by
      by_contra hne
      rcases Nat.lt_or_ge (selectLoop (candSq lll lllInv f f) 27 ((1e20 : ℚ), 0)).2 5 with hl | hg
      · have hp := hpos _ hl
        rw [hdk, hbest0] at hp
        exact lt_irrefl 0 hp
      · have h5lt : 5 < (selectLoop (candSq lll lllInv f f) 27 ((1e20 : ℚ), 0)).2 := by
          omega
        have hp := hfirst 5 h5lt
        rw [hbest0, h5] at hp
        exact lt_irrefl 0 hp
    refine ⟨hb ▸ hbest0, ?_, hkk ▸ hbk, h50, hpos⟩
    have hvec : ∀ r, distVec lll lllInv f f r =
        preVec lll lllInv f f r +
          cartImage lll ((periodicDistance lll lllInv f f).bestk) r :=
      fun _ => rfl
    have hbk5 : (periodicDistance lll lllInv f f).bestk = 5 := hkk ▸ hbk
    refine ⟨?_, ?_, ?_⟩ <;>
      rw [hvec, hbk5, preVec_self, hcart5, zero_add]

/-- Witness for C8's theorem: the identity basis is nondegenerate, and
on the point `(1/3, 1/4, 5/7)` paired with itself the program reports
best squared length 0 at enumeration index 5. -/
theorem coincident_points_witness :
    (periodicDistance idMat idMat (mkVec (1/3) (1/4) (5/7))
        (mkVec (1/3) (1/4) (5/7))).best = 0 ∧
    (periodicDistance idMat idMat (mkVec (1/3) (1/4) (5/7))
        (mkVec (1/3) (1/4) (5/7))).bestk = 5 :=
  ⟨(coincident_points_give_zero idMat idMat
      (by simp [Matrix.det_fin_three, toMat, idMat]) (mkVec (1/3) (1/4) (5/7))).1,
   (coincident_points_give_zero idMat idMat
      (by simp [Matrix.det_fin_three, toMat, idMat]) (mkVec (1/3) (1/4) (5/7))).2.2.1⟩

/-- The Lovász test as evaluated by the loop body at pointer value `k`:
after size reduction, `norm2 ≤ norm1` (source line 97, `norm1 >= norm2`). -/
def lovaszHolds (k : ℕ) (s : St) : Prop :=
  (delta - |(sizeRed k s).u (k-1) (k-2)| ^ 2) *
      vdot ((sizeRed k s).b (k-2)) ((sizeRed k s).b (k-2)) ≤
    vdot ((sizeRed k s).b (k-1)) ((sizeRed k s).b (k-1))

instance (k : ℕ) (s : St) : Decidable (lovaszHolds k s) := by
  unfold lovaszHolds
  exact inferInstance

theorem sizeRedBody_k (k i : ℕ) (s : St) : (sizeRedBody k i s).k = s.k := by
  simp only [sizeRedBody]
  split <;> rfl

theorem sizeRed_k (k : ℕ) (s : St) : (sizeRed k s).k = s.k := by
  unfold sizeRed
  generalize List.range (k-1) = l
  induction l generalizing s with
  | nil => rfl
  | cons x xs ih =>
    rw [List.foldl_cons, ih, sizeRedBody_k]

theorem bodyAt_k (k : ℕ) (s : St) :
    (bodyAt k s).k =
      if lovaszHolds k s then k + 1 else if 2 < k then k - 1 else k := by
  simp only [bodyAt, lovaszHolds]
  split <;> rfl

theorem body_k (s : St) :
    (body s).k =
      if lovaszHolds s.k s then s.k + 1
      else if 2 < s.k then s.k - 1 else s.k :=
  bodyAt_k s.k s

/-- Every state the loop passes through has `k ∈ {2, 3, 4}`. -/
theorem trace_k_mem (a₀ : ℕ → Vec) (n : ℕ) :
    (trace a₀ n).k = 2 ∨ (trace a₀ n).k = 3 ∨ (trace a₀ n).k = 4 := by
  induction n with
  | zero => left; rfl
  | succ n ih =>
    have hstep : trace a₀ (n+1) =
        if (trace a₀ n).k ≤ 3 then body (trace a₀ n) else trace a₀ n := rfl
    rw [hstep]
    by_cases h : (trace a₀ n).k ≤ 3
    · rw [if_pos h, body_k]
      rcases ih with h' | h' | h' <;> split_ifs <;> omega
    · rw [if_neg h]
      exact ih

/-- When the loop returns a state, its pointer exceeds 3 (helper shared
by the termination-related claims). -/
theorem reduceLoop_some_k_gt : ∀ (n : ℕ) (s s' : St),
    reduceLoop n s = some s' → 3 < s'.k := by
  intro n
  induction n with
  | zero =>
    intro s s' h
    unfold reduceLoop at h
    split at h
    · cases h
    · cases h
      omega
  | succ n ih =>
    intro s s' h
    unfold reduceLoop at h
    split at h
    · exact ih _ _ h
    · cases h
      omega

/-- Any state returned by the loop is one of the trace's states. -/
theorem reduceLoop_lands_on_trace (a₀ : ℕ → Vec) :
    ∀ n m s', reduceLoop n (trace a₀ m) = some s' → ∃ p, s' = trace a₀ p := by
  intro n
  induction n with
  | zero =>
    intro m s' h
    unfold reduceLoop at h
    split at h
    · cases h
    · cases h
      exact ⟨m, rfl⟩
  | succ n ih =>
    intro m s' h
    unfold reduceLoop at h
    split at h
    · rename_i hguard
      have hbody : body (trace a₀ m) = trace a₀ (m+1) := by
        have hstep : trace a₀ (m+1) =
            if (trace a₀ m).k ≤ 3 then body (trace a₀ m) else trace a₀ m := rfl
        rw [hstep, if_pos hguard]
      rw [hbody] at h
      exact ih (m+1) s' h
    · cases h
      exact ⟨m, rfl⟩

/-- C6: discipline of the progress pointer `k`.  It starts at 2; every
state the loop passes through has `k ∈ {2,3,4}`, and while the loop is
still running (`k ≤ 3`) it has `k ∈ {2,3}`; one loop body either
advances the pointer by exactly one (when the Lovász test holds) or,
after a swap, retreats it by exactly one only when `k > 2` and leaves
it unchanged otherwise (so it never falls below 2); and the loop
terminates exactly at `k = 4`. -/
theorem progress_pointer_discipline (a₀ : ℕ → Vec) (n : ℕ) :
    (gsInit a₀).k = 2 ∧
    ((trace a₀ n).k = 2 ∨ (trace a₀ n).k = 3 ∨ (trace a₀ n).k = 4) ∧
    ((trace a₀ n).k ≤ 3 → ((trace a₀ n).k = 2 ∨ (trace a₀ n).k = 3)) ∧
    ((body (trace a₀ n)).k =
      if lovaszHolds (trace a₀ n).k (trace a₀ n) then (trace a₀ n).k + 1
      else if 2 < (trace a₀ n).k then (trace a₀ n).k - 1 else (trace a₀ n).k) ∧
    (∀ s', reduceLoop n (gsInit a₀) = some s' → s'.k = 4) := by
  refine ⟨rfl, trace_k_mem a₀ n, ?_, body_k (trace a₀ n), ?_⟩
  · intro h
    rcases trace_k_mem a₀ n with h' | h' | h' <;> omega
  · intro s' h
    have hgt := reduceLoop_some_k_gt n (gsInit a₀) s' h
    have h0 : gsInit a₀ = trace a₀ 0 := rfl
    rw [h0] at h
    obtain ⟨p, rfl⟩ := reduceLoop_lands_on_trace a₀ n 0 s' h
    rcases trace_k_mem a₀ p with h' | h' | h' <;> omega

/-- Witness for C6's theorem: on the demonstration lattice the pointer
starts at 2 and the returned state has `k = 4`. -/
theorem progress_pointer_witness : (gsInit demoA).k = 2 ∧ demoFinal.k = 4 :=
  ⟨(progress_pointer_discipline demoA 12).1,
   (progress_pointer_discipline demoA 12).2.2.2.2 demoFinal demoFinal_run⟩

/-!
## Invariants of the reduction loop (for the termination postcondition)
-/

/-- The stored squared norms agree with the stored Gram–Schmidt
vectors: `m i = bᵢ·bᵢ` for the three rows. -/
def mEq (s : St) : Prop :=
  s.m 0 = vdot (s.b 0) (s.b 0) ∧ s.m 1 = vdot (s.b 1) (s.b 1) ∧
    s.m 2 = vdot (s.b 2) (s.b 2)

/-- Conditions established for the pair `(0,1)`: row 1 is size-reduced
and the Lovász condition holds for `m 0`, `m 1`. -/
def P1 (s : St) : Prop :=
  |s.u 1 0| ≤ 1/2 ∧ (delta - (s.u 1 0)^2) * s.m 0 ≤ s.m 1

/-- Conditions established for row 2: size-reduced and the Lovász
condition for the pair `(1,2)`. -/
def P2 (s : St) : Prop :=
  |s.u 2 0| ≤ 1/2 ∧ |s.u 2 1| ≤ 1/2 ∧ (delta - (s.u 2 1)^2) * s.m 1 ≤ s.m 2

/-- The loop invariant: the norms match the vectors, the pair `(0,1)`
is in order from pointer value 3 on, and everything is in order at
termination (`k = 4`). -/
def RedInv (s : St) : Prop :=
  mEq s ∧ (s.k = 3 ∨ s.k = 4 → P1 s) ∧ (s.k = 4 → P2 s)

/-- The advance branch of the loop body. -/
def advState (k : ℕ) (s : St) : St := { sizeRed k s with k := k + 1 }

/-- The swap/retreat branch of the loop body. -/
def swapState (k : ℕ) (s : St) : St :=
  let s1 := sizeRed k s
  let s2 := { s1 with a := colSwap (k-1) (k-2) s1.a,
                      map := colSwap (k-1) (k-2) s1.map }
  let s3 := gsRecompute k (gsRecompute (k-1) s2)
  { s3 with k := if 2 < k then k - 1 else k }

theorem bodyAt_eq (k : ℕ) (s : St) :
    bodyAt k s = if lovaszHolds k s then advState k s else swapState k s := by
  simp only [bodyAt, lovaszHolds, advState, swapState]

theorem sizeRedBody_b (k i : ℕ) (s : St) : (sizeRedBody k i s).b = s.b := by
  simp only [sizeRedBody]
  split <;> rfl

theorem sizeRedBody_m (k i : ℕ) (s : St) : (sizeRedBody k i s).m = s.m := by
  simp only [sizeRedBody]
  split <;> rfl

theorem sizeRed_b (k : ℕ) (s : St) : (sizeRed k s).b = s.b := by
  unfold sizeRed
  generalize List.range (k-1) = l
  induction l generalizing s with
  | nil => rfl
  | cons x xs ih =>
    rw [List.foldl_cons, ih, sizeRedBody_b]

theorem sizeRed_m (k : ℕ) (s : St) : (sizeRed k s).m = s.m := by
  unfold sizeRed
  generalize List.range (k-1) = l
  induction l generalizing s with
  | nil => rfl
  | cons x xs ih =>
    rw [List.foldl_cons, ih, sizeRedBody_m]

/-- After one size-reduction pass on entry `(k-1, i-1)`, that stored
coefficient has magnitude at most one half. -/
theorem sizeRedBody_u_self (k i : ℕ) (s : St) (hi : 0 < i) :
    |(sizeRedBody k i s).u (k-1) (i-1)| ≤ 1/2 := by
  simp only [sizeRedBody]
  split
  · rename_i h
    dsimp only
    have hcond : k - 1 = k - 1 ∧ i - 1 < i := ⟨rfl, by omega⟩
    rw [if_pos hcond, if_neg (lt_irrefl (i-1)), if_pos rfl, mul_one]
    exact abs_sub_rint_le _
  · rename_i h
    push_neg at h
    exact h

/-- Entries outside the updated range of row `k-1` are untouched by a
size-reduction pass. -/
theorem sizeRedBody_u_other (k i : ℕ) (s : St) (p j : ℕ)
    (h : ¬(p = k-1 ∧ j < i)) :
    (sizeRedBody k i s).u p j = s.u p j := by
  simp only [sizeRedBody]
  split
  · dsimp only
    rw [if_neg h]
  · rfl

theorem sizeRed_two (s : St) : sizeRed 2 s = sizeRedBody 2 1 s := rfl

theorem sizeRed_three (s : St) :
    sizeRed 3 s = sizeRedBody 3 1 (sizeRedBody 3 2 s) := rfl

/-- Net effect of the size-reduction loop at `k = 2` on the stored
coefficients. -/
theorem sizeRed2_u10 (s : St) : |(sizeRed 2 s).u 1 0| ≤ 1/2 := by
  rw [sizeRed_two]
  exact sizeRedBody_u_self 2 1 s (by omega)

/-- Net effect of the size-reduction loop at `k = 3` on the stored
coefficients: row 2 becomes size-reduced and row 1 is untouched. -/
theorem sizeRed3_u (s : St) :
    |(sizeRed 3 s).u 2 0| ≤ 1/2 ∧ |(sizeRed 3 s).u 2 1| ≤ 1/2 ∧
    (sizeRed 3 s).u 1 0 = s.u 1 0 := by
  rw [sizeRed_three]
  refine ⟨?_, ?_, ?_⟩
  · exact sizeRedBody_u_self 3 1 (sizeRedBody 3 2 s) (by omega)
  · rw [sizeRedBody_u_other 3 1 (sizeRedBody 3 2 s) 2 1 (by omega)]
    exact sizeRedBody_u_self 3 2 s (by omega)
  · rw [sizeRedBody_u_other 3 1 (sizeRedBody 3 2 s) 1 0 (by omega),
      sizeRedBody_u_other 3 2 s 1 0 (by omega)]

theorem gsRecompute_m_self (si : ℕ) (t : St) :
    (gsRecompute si t).m (si-1) =
      vdot ((gsRecompute si t).b (si-1)) ((gsRecompute si t).b (si-1)) := by
  simp only [gsRecompute]
  rw [Function.update_same, Function.update_same]

theorem gsRecompute_m_other (si : ℕ) (t : St) (j : ℕ) (h : j ≠ si-1) :
    (gsRecompute si t).m j = t.m j := by
  simp only [gsRecompute]
  rw [Function.update_noteq h]

theorem gsRecompute_b_other (si : ℕ) (t : St) (j : ℕ) (h : j ≠ si-1) :
    (gsRecompute si t).b j = t.b j := by
  simp only [gsRecompute]
  rw [Function.update_noteq h]

theorem gsRecompute_mEq (si : ℕ) (t : St) (h : mEq t) : mEq (gsRecompute si t) := by
  obtain ⟨h0, h1, h2⟩ := h
  refine ⟨?_, ?_, ?_⟩
  · by_cases hj : (0:ℕ) = si - 1
    · rw [hj]; exact gsRecompute_m_self si t
    · rw [gsRecompute_m_other si t 0 hj, gsRecompute_b_other si t 0 hj]; exact h0
  · by_cases hj : (1:ℕ) = si - 1
    · rw [hj]; exact gsRecompute_m_self si t
    · rw [gsRecompute_m_other si t 1 hj, gsRecompute_b_other si t 1 hj]; exact h1
  · by_cases hj : (2:ℕ) = si - 1
    · rw [hj]; exact gsRecompute_m_self si t
    · rw [gsRecompute_m_other si t 2 hj, gsRecompute_b_other si t 2 hj]; exact h2

theorem sizeRed_mEq (k : ℕ) (s : St) (h : mEq s) : mEq (sizeRed k s) := by
  unfold mEq at h ⊢
  rw [sizeRed_b, sizeRed_m]
  exact h

theorem gsInit_mEq (a₀ : ℕ → Vec) : mEq (gsInit a₀) := by
  apply gsRecompute_mEq
  apply gsRecompute_mEq
  refine ⟨?_, ?_, ?_⟩ <;> dsimp only
  · rw [Function.update_same, Function.update_same]
  · rw [Function.update_noteq one_ne_zero, Function.update_noteq one_ne_zero]
    simp [vdot]
  · rw [Function.update_noteq two_ne_zero, Function.update_noteq two_ne_zero]
    simp [vdot]


/-- The swap/retreat branch preserves the norm bookkeeping. -/
theorem swapState_mEq (k : ℕ) (s : St) (h : mEq s) : mEq (swapState k s) := by
  have h1 : mEq (sizeRed k s) := sizeRed_mEq k s h
  have h2 : mEq { sizeRed k s with
      a := colSwap (k-1) (k-2) (sizeRed k s).a,
      map := colSwap (k-1) (k-2) (sizeRed k s).map } := h1
  have h3 := gsRecompute_mEq k _ (gsRecompute_mEq (k-1) _ h2)
  exact h3

/-- Preservation of the reduction invariant by one loop iteration. -/
theorem redInv_body (s : St) (hk2 : s.k = 2 ∨ s.k = 3) (h : RedInv s) :
    RedInv (body s) := by
  obtain ⟨hme, hp1, _⟩ := h
  rcases hk2 with hk | hk
  · have hb2 : body s = if lovaszHolds 2 s then advState 2 s else swapState 2 s := by
      unfold body
      rw [hk, bodyAt_eq]
    rw [hb2]
    by_cases hlov : lovaszHolds 2 s
    · rw [if_pos hlov]
      refine ⟨sizeRed_mEq 2 s hme, ?_, ?_⟩
      · intro _
        constructor
        · exact sizeRed2_u10 s
        · unfold lovaszHolds at hlov
          rw [sizeRed_b] at hlov
          have hlov' : (delta - |(sizeRed 2 s).u 1 0| ^ 2) * vdot (s.b 0) (s.b 0) ≤
              vdot (s.b 1) (s.b 1) := hlov
          rw [sq_abs] at hlov'
          show (delta - ((sizeRed 2 s).u 1 0)^2) * (sizeRed 2 s).m 0 ≤ (sizeRed 2 s).m 1
          rw [sizeRed_m, hme.1, hme.2.1]
          exact hlov'
      · intro h4
        have hadv : (advState 2 s).k = 3 := rfl
        rw [hadv] at h4
        exact absurd h4 (by decide)
    · rw [if_neg hlov]
      have hsk : (swapState 2 s).k = 2 := rfl
      refine ⟨?_, ?_, ?_⟩
      · exact swapState_mEq 2 s hme
      · intro h3
        rcases h3 with h3 | h3 <;> rw [hsk] at h3 <;> exact absurd h3 (by decide)
      · intro h4
        rw [hsk] at h4
        exact absurd h4 (by decide)
  · have hb3 : body s = if lovaszHolds 3 s then advState 3 s else swapState 3 s := by
      unfold body
      rw [hk, bodyAt_eq]
    rw [hb3]
    have hP1s : P1 s := hp1 (Or.inl hk)
    by_cases hlov : lovaszHolds 3 s
    · rw [if_pos hlov]
      have hu := sizeRed3_u s
      refine ⟨sizeRed_mEq 3 s hme, ?_, ?_⟩
      · intro _
        constructor
        · show |(sizeRed 3 s).u 1 0| ≤ 1/2
          rw [hu.2.2]
          exact hP1s.1
        · show (delta - ((sizeRed 3 s).u 1 0)^2) * (sizeRed 3 s).m 0 ≤ (sizeRed 3 s).m 1
          rw [hu.2.2, sizeRed_m]
          exact hP1s.2
      · intro _
        refine ⟨hu.1, hu.2.1, ?_⟩
        unfold lovaszHolds at hlov
        rw [sizeRed_b] at hlov
        have hlov' : (delta - |(sizeRed 3 s).u 2 1| ^ 2) * vdot (s.b 1) (s.b 1) ≤
            vdot (s.b 2) (s.b 2) := hlov
        rw [sq_abs] at hlov'
        show (delta - ((sizeRed 3 s).u 2 1)^2) * (sizeRed 3 s).m 1 ≤ (sizeRed 3 s).m 2
        rw [sizeRed_m, hme.2.1, hme.2.2]
        exact hlov'
    · rw [if_neg hlov]
      have hsk : (swapState 3 s).k = 2 := rfl
      refine ⟨?_, ?_, ?_⟩
      · exact swapState_mEq 3 s hme
      · intro h3
        rcases h3 with h3 | h3 <;> rw [hsk] at h3 <;> exact absurd h3 (by decide)
      · intro h4
        rw [hsk] at h4
        exact absurd h4 (by decide)

/-- The combined loop invariant: the reachable pointer range together
with the reduction conditions. -/
def FullInv (s : St) : Prop :=
  (s.k = 2 ∨ s.k = 3 ∨ s.k = 4) ∧ RedInv s

theorem fullInv_body (s : St) (hg : s.k ≤ 3) (h : FullInv s) :
    FullInv (body s) := by
  obtain ⟨hk, hr⟩ := h
  have hk23 : s.k = 2 ∨ s.k = 3 := by rcases hk with h'|h'|h' <;> omega
  refine ⟨?_, redInv_body s hk23 hr⟩
  rw [body_k]
  split_ifs <;> rcases hk23 with h' | h' <;> omega

theorem fullInv_loop : ∀ (n : ℕ) (s s' : St),
    reduceLoop n s = some s' → FullInv s → FullInv s' := by
  intro n
  induction n with
  | zero =>
    intro s s' h hi
    unfold reduceLoop at h
    split at h
    · cases h
    · cases h
      exact hi
  | succ n ih =>
    intro s s' h hi
    unfold reduceLoop at h
    split at h
    · rename_i hg
      exact ih _ _ h (fullInv_body s hg hi)
    · cases h
      exact hi

/-- C2: the basis state output by the reduction loop at termination is
LLL-reduced in the sense of the program state: the stored coefficients
satisfy the size-reduction bound `|u[i][j]| <= 1/2` for all `j < i`, and
the stored squared norms satisfy the Lovász condition
`m[k] >= (delta - u[k][k-1]^2) * m[k-1]` with `delta = 0.75` for both
adjacent pairs.  No nondegeneracy hypothesis is needed: the claim holds
whenever the loop terminates. -/
theorem reduction_postcondition (a₀ : ℕ → Vec) (fuel : ℕ) (s' : St)
    (h : lllReduce a₀ fuel = some s') :
    (|s'.u 1 0| ≤ 1/2 ∧ |s'.u 2 0| ≤ 1/2 ∧ |s'.u 2 1| ≤ 1/2) ∧
    ((delta - (s'.u 1 0)^2) * s'.m 0 ≤ s'.m 1 ∧
     (delta - (s'.u 2 1)^2) * s'.m 1 ≤ s'.m 2) := by
  have hinit : FullInv (gsInit a₀) := by
    refine ⟨Or.inl rfl, ?_, ?_, ?_⟩
    · exact gsInit_mEq a₀
    · intro h3
      have hik : (gsInit a₀).k = 2 := rfl
      rcases h3 with h3 | h3 <;> rw [hik] at h3 <;> exact absurd h3 (by decide)
    · intro h4
      have hik : (gsInit a₀).k = 2 := rfl
      rw [hik] at h4
      exact absurd h4 (by decide)
  obtain ⟨hkmem, _, hp1, hp2⟩ := fullInv_loop fuel (gsInit a₀) s' h hinit
  have hgt := reduceLoop_some_k_gt fuel (gsInit a₀) s' h
  have hk4 : s'.k = 4 := by rcases hkmem with h'|h'|h' <;> omega
  have p1 := hp1 (Or.inr hk4)
  have p2 := hp2 hk4
  exact ⟨⟨p1.1, p2.1, p2.2.1⟩, p1.2, p2.2.2⟩

/-- Witness for C2's theorem: the reduced state actually produced on the
demonstration lattice satisfies both reduction conditions. -/
theorem reduction_postcondition_witness :
    (|demoFinal.u 1 0| ≤ 1/2 ∧ |demoFinal.u 2 0| ≤ 1/2 ∧
      |demoFinal.u 2 1| ≤ 1/2) ∧
    ((delta - (demoFinal.u 1 0)^2) * demoFinal.m 0 ≤ demoFinal.m 1 ∧
     (delta - (demoFinal.u 2 1)^2) * demoFinal.m 1 ≤ demoFinal.m 2) :=
  reduction_postcondition demoA 12 demoFinal demoFinal_run


/-!
## Lattice equivalence and unimodularity of the mapping
-/

/-- The invariant relating the working basis to the original basis via
the accumulated mapping: `reduced = original * mapping` as 3×3
matrices, and the mapping has determinant ±1. -/
def MapInv (a₀ : ℕ → Vec) (s : St) : Prop :=
  colMat s.a = colMat a₀ * colMat s.map ∧
    ((colMat s.map).det = 1 ∨ (colMat s.map).det = -1)

theorem colMat_idCols : colMat idCols = 1 := by
  ext r j
  by_cases h : r = j
  · subst h
    simp [colMat, idCols, Matrix.one_apply]
  · have hv : (r : ℕ) ≠ (j : ℕ) := fun hc => h (Fin.ext hc)
    simp [colMat, idCols, Matrix.one_apply, h, hv]

/-- Entrywise description of a product identity `colMat f = A * colMat g`. -/
theorem colMat_mul_entries {f g : ℕ → Vec} {A : Matrix (Fin 3) (Fin 3) ℚ}
    (h : colMat f = A * colMat g) (r t : Fin 3) :
    f t.val r.val =
      A r 0 * g t.val 0 + A r 1 * g t.val 1 + A r 2 * g t.val 2 := by
  have he := congrFun (congrFun h r) t
  simpa [colMat, Matrix.mul_apply, Fin.sum_univ_three] using he

/-- An identical integer-scaled column subtraction on both sides
preserves the product identity. -/
theorem colop_product (p q : ℕ) (hp : p < 3) (hq : q < 3)
    (f g : ℕ → Vec) (A : Matrix (Fin 3) (Fin 3) ℚ) (c : ℚ)
    (h : colMat f = A * colMat g) :
    colMat (Function.update f p (vsub (f p) (vsmul c (f q)))) =
      A * colMat (Function.update g p (vsub (g p) (vsmul c (g q)))) := by
  ext r j
  simp only [colMat, Matrix.of_apply, Matrix.mul_apply, Fin.sum_univ_three,
    Fin.val_zero, Fin.val_one, Fin.val_two]
  by_cases hj : (j : ℕ) = p
  · rw [hj, Function.update_same, Function.update_same]
    have h1 := colMat_mul_entries h r ⟨p, hp⟩
    have h2 := colMat_mul_entries h r ⟨q, hq⟩
    simp only [vsub, vsmul]
    simp only [Fin.val_mk] at h1 h2
    rw [h1, h2]
    ring
  · rw [Function.update_noteq hj, Function.update_noteq hj]
    exact colMat_mul_entries h r j

/-- An identical column swap on both sides preserves the product
identity. -/
theorem colswap_product (p q : ℕ) (hp : p < 3) (hq : q < 3)
    (f g : ℕ → Vec) (A : Matrix (Fin 3) (Fin 3) ℚ)
    (h : colMat f = A * colMat g) :
    colMat (colSwap p q f) = A * colMat (colSwap p q g) := by
  ext r j
  simp only [colMat, Matrix.of_apply, Matrix.mul_apply, Fin.sum_univ_three, colSwap]
  by_cases hjq : (j : ℕ) = q
  · rw [hjq, Function.update_same, Function.update_same]
    have h1 := colMat_mul_entries h r ⟨p, hp⟩
    simp only [Fin.val_mk] at h1
    exact h1
  · rw [Function.update_noteq hjq, Function.update_noteq hjq]
    by_cases hjp : (j : ℕ) = p
    · rw [hjp, Function.update_same, Function.update_same]
      have h2 := colMat_mul_entries h r ⟨q, hq⟩
      simp only [Fin.val_mk] at h2
      exact h2
    · rw [Function.update_noteq hjp, Function.update_noteq hjp]
      exact colMat_mul_entries h r j

/-- A column shear leaves the determinant unchanged. -/
theorem det_colop (p q : ℕ) (hp : p < 3) (hq : q < 3) (hne : p ≠ q)
    (g : ℕ → Vec) (c : ℚ) :
    (colMat (Function.update g p (vsub (g p) (vsmul c (g q))))).det =
      (colMat g).det := by
  interval_cases p <;> interval_cases q <;>
    first
      | exact absurd rfl hne
      | (simp [Matrix.det_fin_three, colMat, Function.update, vsub, vsmul]
         ring)

/-- A swap of two distinct columns negates the determinant. -/
theorem det_colswap (p q : ℕ) (hp : p < 3) (hq : q < 3) (hne : p ≠ q)
    (g : ℕ → Vec) :
    (colMat (colSwap p q g)).det = -(colMat g).det := by
  interval_cases p <;> interval_cases q <;>
    first
      | exact absurd rfl hne
      | (simp [Matrix.det_fin_three, colMat, colSwap, Function.update]
         ring)

theorem mapInv_of_same (a₀ : ℕ → Vec) (t t' : St)
    (ha : t'.a = t.a) (hm : t'.map = t.map) (h : MapInv a₀ t) :
    MapInv a₀ t' := by
  unfold MapInv at h ⊢
  rw [ha, hm]
  exact h

theorem mapInv_sizeRedBody (a₀ : ℕ → Vec) (k i : ℕ)
    (hk : k - 1 < 3) (hi : i - 1 < 3) (hne : k - 1 ≠ i - 1)
    (s : St) (h : MapInv a₀ s) : MapInv a₀ (sizeRedBody k i s) := by
  simp only [sizeRedBody]
  split
  · constructor
    · exact colop_product (k-1) (i-1) hk hi s.a s.map (colMat a₀) _ h.1
    · show (colMat (Function.update s.map (k-1)
          (vsub (s.map (k-1)) (vsmul ((rint (s.u (k-1) (i-1)) : ℤ) : ℚ) (s.map (i-1)))))).det = 1 ∨
        (colMat (Function.update s.map (k-1)
          (vsub (s.map (k-1)) (vsmul ((rint (s.u (k-1) (i-1)) : ℤ) : ℚ) (s.map (i-1)))))).det = -1
      rw [det_colop (k-1) (i-1) hk hi hne]
      exact h.2
  · exact h

theorem mapInv_sizeRed2 (a₀ : ℕ → Vec) (s : St) (h : MapInv a₀ s) :
    MapInv a₀ (sizeRed 2 s) := by
  rw [sizeRed_two]
  exact mapInv_sizeRedBody a₀ 2 1 (by omega) (by omega) (by omega) s h

theorem mapInv_sizeRed3 (a₀ : ℕ → Vec) (s : St) (h : MapInv a₀ s) :
    MapInv a₀ (sizeRed 3 s) := by
  rw [sizeRed_three]
  exact mapInv_sizeRedBody a₀ 3 1 (by omega) (by omega) (by omega) _
    (mapInv_sizeRedBody a₀ 3 2 (by omega) (by omega) (by omega) s h)

theorem mapInv_swapped (a₀ : ℕ → Vec) (p q : ℕ)
    (hp : p < 3) (hq : q < 3) (hne : p ≠ q) (t : St) (h : MapInv a₀ t) :
    MapInv a₀ { t with a := colSwap p q t.a, map := colSwap p q t.map } := by
  constructor
  · exact colswap_product p q hp hq t.a t.map (colMat a₀) h.1
  · show (colMat (colSwap p q t.map)).det = 1 ∨ (colMat (colSwap p q t.map)).det = -1
    rw [det_colswap p q hp hq hne]
    rcases h.2 with hd | hd <;> rw [hd]
    · right
      norm_num
    · left
      norm_num

theorem mapInv_body (a₀ : ℕ → Vec) (s : St) (hk : s.k = 2 ∨ s.k = 3)
    (h : MapInv a₀ s) : MapInv a₀ (body s) := by
  rcases hk with hk | hk
  · have hb : body s = if lovaszHolds 2 s then advState 2 s else swapState 2 s := by
      unfold body
      rw [hk, bodyAt_eq]
    rw [hb]
    have h1 : MapInv a₀ (sizeRed 2 s) := mapInv_sizeRed2 a₀ s h
    by_cases hlov : lovaszHolds 2 s
    · rw [if_pos hlov]
      exact mapInv_of_same a₀ (sizeRed 2 s) (advState 2 s) rfl rfl h1
    · rw [if_neg hlov]
      exact mapInv_of_same a₀ _ (swapState 2 s) rfl rfl
        (mapInv_swapped a₀ (2-1) (2-2) (by omega) (by omega) (by omega)
          (sizeRed 2 s) h1)
  · have hb : body s = if lovaszHolds 3 s then advState 3 s else swapState 3 s := by
      unfold body
      rw [hk, bodyAt_eq]
    rw [hb]
    have h1 : MapInv a₀ (sizeRed 3 s) := mapInv_sizeRed3 a₀ s h
    by_cases hlov : lovaszHolds 3 s
    · rw [if_pos hlov]
      exact mapInv_of_same a₀ (sizeRed 3 s) (advState 3 s) rfl rfl h1
    · rw [if_neg hlov]
      exact mapInv_of_same a₀ _ (swapState 3 s) rfl rfl
        (mapInv_swapped a₀ (3-1) (3-2) (by omega) (by omega) (by omega)
          (sizeRed 3 s) h1)

theorem mapInv_init (a₀ : ℕ → Vec) : MapInv a₀ (gsInit a₀) := by
  constructor
  · show colMat a₀ = colMat a₀ * colMat idCols
    rw [colMat_idCols, mul_one]
  · show (colMat idCols).det = 1 ∨ (colMat idCols).det = -1
    rw [colMat_idCols, Matrix.det_one]
    left
    rfl

theorem mapInv_trace (a₀ : ℕ → Vec) (n : ℕ) : MapInv a₀ (trace a₀ n) := by
  induction n with
  | zero => exact mapInv_init a₀
  | succ n ih =>
    have hstep : trace a₀ (n+1) =
        if (trace a₀ n).k ≤ 3 then body (trace a₀ n) else trace a₀ n := rfl
    rw [hstep]
    by_cases hg : (trace a₀ n).k ≤ 3
    · rw [if_pos hg]
      have hk23 : (trace a₀ n).k = 2 ∨ (trace a₀ n).k = 3 := by
        rcases trace_k_mem a₀ n with h' | h' | h' <;> omega
      exact mapInv_body a₀ _ hk23 ih
    · rw [if_neg hg]
      exact ih

/-- C3: at every point of the reduction — after any number of loop
iterations — and in particular at termination, the working basis equals
the original basis times the accumulated mapping
(`reduced = original · mapping` as 3×3 matrices), and the mapping's
determinant is `1` or `-1`: it starts as the identity and accumulates
only integer-scaled column subtractions and column swaps. -/
theorem lattice_equivalence_and_unimodularity (a₀ : ℕ → Vec) (n : ℕ) :
    (colMat (trace a₀ n).a = colMat a₀ * colMat (trace a₀ n).map ∧
      ((colMat (trace a₀ n).map).det = 1 ∨ (colMat (trace a₀ n).map).det = -1)) ∧
    (∀ (fuel : ℕ) (s' : St), lllReduce a₀ fuel = some s' →
      colMat s'.a = colMat a₀ * colMat s'.map ∧
        ((colMat s'.map).det = 1 ∨ (colMat s'.map).det = -1)) := by
  refine ⟨mapInv_trace a₀ n, ?_⟩
  intro fuel s' h
  have h0 : gsInit a₀ = trace a₀ 0 := rfl
  rw [lllReduce, h0] at h
  obtain ⟨p, rfl⟩ := reduceLoop_lands_on_trace a₀ fuel 0 s' h
  exact mapInv_trace a₀ p

/-- Witness for C3's theorem: on the demonstration lattice the returned
state satisfies the equivalence and its mapping has determinant ±1. -/
theorem lattice_equivalence_witness :
    colMat demoFinal.a = colMat demoA * colMat demoFinal.map ∧
      ((colMat demoFinal.map).det = 1 ∨ (colMat demoFinal.map).det = -1) :=
  (lattice_equivalence_and_unimodularity demoA 0).2 12 demoFinal demoFinal_run

end ClaimTheorems

end StructureConstants

